import Mathlib

set_option maxRecDepth 8000

/-!
Verification of the ImagePro resize pipeline (`imagepro.py`).

Shallow embedding of the resize pipeline from `imagepro.py` and proofs of the
specified properties.  Image sizes and requested target sizes are Python
integers, embedded as `Int`.  The source computes the derived dimension as
`int((size / constrained) * orthogonal)` in IEEE-754 double arithmetic;
this file carries both the exact-arithmetic idealization (`calcDims`, used
by the properties that are insensitive to rounding) and a bit-faithful
model of the double computation (`floatDerived` / `calcDimsF`, used by the
properties about the derived value itself).  Filesystem writes, the
Lanczos resampling kernel and JPEG encoding are external primitives and
are not modelled; the records they would fill (`path`, `size_kb`) are
elided.
-/

namespace ImagePro

/-- A created-file record, as appended to `created_files` in
`resize_image` (imagepro.py lines 116-122).  The `path` and `size_kb`
fields are filesystem artifacts (`output_dir / filename`, size of the
written file) and are elided. -/
structure CreatedFile where
  filename : String
  width : Int
  height : Int
deriving Repr, DecidableEq

/-- Skip reason for the width axis (imagepro.py line 81):
`f"original is only {orig_width}px wide"`. -/
def upscaleReasonWidth (orig_width : Int) : String :=
  "original is only " ++ toString orig_width ++ "px wide"

/-- Skip reason for the height axis (imagepro.py line 87):
`f"original is only {orig_height}px tall"`. -/
def upscaleReasonHeight (orig_height : Int) : String :=
  "original is only " ++ toString orig_height ++ "px tall"

/-- Output filename (imagepro.py line 96):
`f"{base_name}_{size}{extension}"`. -/
def output_filename (base_name extension : String) (size : Int) : String :=
  base_name ++ "_" ++ toString size ++ extension

/-- The dimension calculation of `resize_image` (imagepro.py lines 79-90)
under exact rational arithmetic: for axis `"width"`, a size above the
original width is skipped with a reason, otherwise `new_width = size` and
`new_height = int((size / orig_width) * orig_height)`; any other axis
string takes the height branch.  Python evaluates the derived dimension
with two rounded double operations; `Int.tdiv (size * orig_height)
orig_width` is its exact-arithmetic idealization, adequate for the
properties that depend only on the integer feasibility comparison, the
reason strings, and the loop structure.  The bit-faithful IEEE-754 model
of the same computation is `floatDerived` / `calcDimsF` below; the two
differ on rare inputs (e.g. a 49×49 source with width target 1, where the
doubles give 0 and exact arithmetic gives 1). -/
def calcDims (dimension : String) (orig_width orig_height size : Int) :
    Except String (Int × Int) :=
  if dimension = "width" then
    if size > orig_width then .error (upscaleReasonWidth orig_width)
    else .ok (size, Int.tdiv (size * orig_height) orig_width)
  else
    if size > orig_height then .error (upscaleReasonHeight orig_height)
    else .ok (Int.tdiv (size * orig_width) orig_height, size)

/-- The per-size loop of `resize_image` (imagepro.py lines 77-124): each
size either appends a skip record `(size, reason)` or a created-file
record; the resample/normalize/save steps in the created branch are
external effects modelled separately (`normalize` below). -/
def processSizes (dimension : String) (orig_width orig_height : Int)
    (base_name extension : String) :
    List Int → List CreatedFile × List (Int × String)
  | [] => ([], [])
  | size :: rest =>
    match calcDims dimension orig_width orig_height size with
    | .error reason =>
        let r := processSizes dimension orig_width orig_height base_name extension rest
        (r.1, (size, reason) :: r.2)
    | .ok (nw, nh) =>
        let r := processSizes dimension orig_width orig_height base_name extension rest
        (⟨output_filename base_name extension size, nw, nh⟩ :: r.1, r.2)

/-- Outcome of one call to `resize_image`: either the process exits with a
code after printing lines to stderr (imagepro.py lines 58-60), or the pair
`(created_files, skipped_sizes)` is returned (line 124). -/
inductive PipeResult where
  | exited (code : Nat) (stderrLines : List String)
  | returned (created : List CreatedFile) (skipped : List (Int × String))
deriving Repr, DecidableEq

/-- Embedding of `resize_image` (imagepro.py lines 40-124).  `decoded` is the result of
the external `Image.open` decode: on failure the code prints two error
lines to stderr and calls `sys.exit(4)`; on success the per-size loop runs
and the two lists are returned.  Directory creation (line 67) is an
external effect and is elided. -/
def resize_image (input_path : String) (decoded : Except String (Int × Int))
    (base_name extension : String) (sizes : List Int) (dimension : String) :
    PipeResult :=
  match decoded with
  | .error e =>
      .exited 4 ["Error: Cannot read image: " ++ input_path, "Details: " ++ e]
  | .ok (ow, oh) =>
      let r := processSizes dimension ow oh base_name extension sizes
      .returned r.1 r.2

/-- Embedding of `parse_sizes` (imagepro.py lines 16-24), from the point where the
comma-separated pieces have been converted to integers (the `int(...)`
conversion itself is an external primitive): if any size is non-positive
a `ValueError("Sizes must be positive integers")` is raised and re-raised
as `ArgumentTypeError(f"Invalid size format: {e}")`; otherwise the list is
returned unchanged. -/
def parse_sizes (sizes : List Int) : Except String (List Int) :=
  if sizes.any (fun s => decide (s ≤ 0)) then
    .error "Invalid size format: Sizes must be positive integers"
  else .ok sizes

/-- The sizes-to-pipeline flow of `cmd_resize` (imagepro.py lines 146-181):
the requested sizes pass through `parse_sizes` (line 148/151) before
`resize_image` is invoked (line 175); a `parse_sizes` error propagates and
`resize_image` never runs.  The file-existence, extension and quality
checks of `cmd_resize` concern other arguments and are elided. -/
def cmd_resize (input_path : String) (decoded : Except String (Int × Int))
    (base_name extension : String) (rawSizes : List Int) (dimension : String) :
    Except String PipeResult :=
  match parse_sizes rawSizes with
  | .error e => .error e
  | .ok sizes =>
      .ok (resize_image input_path decoded base_name extension sizes dimension)

/-! Pixel-mode normalization (imagepro.py lines 100-108).

Channel intensities are idealized as exact rationals in `[0, 255]`
(8-bit quantization of the external imaging library is not modelled).
A buffer carries its mode as a constructor; the `other` constructor
stands for any opaque non-RGB mode (e.g. `L`, `CMYK`), carrying the
external `convert('RGB')` primitive's per-pixel result as data. -/

/-- An opaque RGB pixel. -/
structure RGBPix where
  r : ℚ
  g : ℚ
  b : ℚ
deriving Repr, DecidableEq

/-- An RGBA pixel: color channels plus alpha in `[0, 255]`. -/
structure RGBAPix where
  r : ℚ
  g : ℚ
  b : ℚ
  a : ℚ
deriving Repr, DecidableEq

/-- A decoded (already resampled) pixel buffer together with its mode tag,
mirroring the modes `resize_image` distinguishes: `RGB`, `RGBA`, `LA`
(grayscale+alpha), `P` (palette-indexed), and anything else opaque. -/
inductive PixBuf where
  | rgb (w h : Nat) (px : Nat → Nat → RGBPix)
  | rgba (w h : Nat) (px : Nat → Nat → RGBAPix)
  | la (w h : Nat) (px : Nat → Nat → ℚ × ℚ)
  | pal (w h : Nat) (palette : Nat → RGBAPix) (idx : Nat → Nat → Nat)
  | other (w h : Nat) (toRGB : Nat → Nat → RGBPix)

/-- Pixel width of a buffer. -/
def PixBuf.width : PixBuf → Nat
  | .rgb w _ _ => w
  | .rgba w _ _ => w
  | .la w _ _ => w
  | .pal w _ _ _ => w
  | .other w _ _ => w

/-- Pixel height of a buffer. -/
def PixBuf.height : PixBuf → Nat
  | .rgb _ h _ => h
  | .rgba _ h _ => h
  | .la _ h _ => h
  | .pal _ h _ _ => h
  | .other _ h _ => h

/-- Whether a buffer is in the canonical 3-channel opaque RGB mode. -/
def PixBuf.isRGB : PixBuf → Bool
  | .rgb _ _ _ => true
  | _ => false

/-- Alpha blend of one channel over the white background (value 255):
`Image.paste` with the alpha channel as mask interpolates linearly
between background and source. -/
def blendOverWhite (alpha c : ℚ) : ℚ :=
  (alpha * c + (255 - alpha) * 255) / 255

/-- Compositing one RGBA pixel onto the opaque white background created
at imagepro.py line 102, with its alpha as the paste mask (line 105). -/
def compositeWhite (p : RGBAPix) : RGBPix :=
  ⟨blendOverWhite p.a p.r, blendOverWhite p.a p.g, blendOverWhite p.a p.b⟩

/-- Expansion `convert('RGBA')` applied to a palette-indexed buffer
(imagepro.py line 104): every index is expanded through the palette to a
full color+alpha pixel. -/
def palToRGBA (palette : Nat → RGBAPix) (idx : Nat → Nat → Nat)
    (x y : Nat) : RGBAPix :=
  palette (idx x y)

/-- The pixel-mode normalization of `resize_image` (imagepro.py lines
100-108): modes `RGBA`, `LA`, `P` are flattened onto an opaque white
background using the alpha channel as paste mask (`P` first expanded to
`RGBA` by `convert('RGBA')`); `RGB` passes through; any other mode is
converted to RGB by the external `convert('RGB')` primitive.  Pasting an
`LA` pixel onto an RGB background replicates its luminance over the three
channels. -/
def normalize : PixBuf → PixBuf
  | .rgb w h px => .rgb w h px
  | .rgba w h px => .rgb w h (fun x y => compositeWhite (px x y))
  | .la w h px => .rgb w h (fun x y =>
      let p := px x y
      ⟨blendOverWhite p.2 p.1, blendOverWhite p.2 p.1, blendOverWhite p.2 p.1⟩)
  | .pal w h palette idx => .rgb w h (fun x y => compositeWhite (palToRGBA palette idx x y))
  | .other w h toRGB => .rgb w h toRGB

/-! Specification-side descriptions.

Definitions below follow the spec's vocabulary (constrained/orthogonal
dimension, feasibility, record shapes) for comparison against the source
embedding above. -/

/-- The original dimension constrained by the scale axis: the width for
axis `"width"`, otherwise the height (the source treats every other axis
string as the height branch). -/
def constrainedOrig (dimension : String) (orig_width orig_height : Int) : Int :=
  if dimension = "width" then orig_width else orig_height

/-- The original dimension orthogonal to the scale axis. -/
def orthogonalOrig (dimension : String) (orig_width orig_height : Int) : Int :=
  if dimension = "width" then orig_height else orig_width

/-- A target is feasible when it does not exceed the constrained original
dimension (equality permitted). -/
def feasible (dimension : String) (orig_width orig_height size : Int) : Bool :=
  decide (size ≤ constrainedOrig dimension orig_width orig_height)

/-- The created-file record produced for a feasible size. -/
def mkCreated (dimension : String) (orig_width orig_height : Int)
    (base_name extension : String) (size : Int) : CreatedFile :=
  if dimension = "width" then
    ⟨output_filename base_name extension size, size,
      Int.tdiv (size * orig_height) orig_width⟩
  else
    ⟨output_filename base_name extension size,
      Int.tdiv (size * orig_width) orig_height, size⟩

/-- The skip record produced for an infeasible size. -/
def mkSkip (dimension : String) (orig_width orig_height : Int) (size : Int) :
    Int × String :=
  (size, if dimension = "width" then upscaleReasonWidth orig_width
         else upscaleReasonHeight orig_height)

/-- The resolver `calcDims` succeeds exactly on feasible sizes, yielding the record
dimensions of `mkCreated`. -/
theorem calcDims_eq_of_feasible (dimension : String) (ow oh size : Int)
    (h : feasible dimension ow oh size = true) :
    calcDims dimension ow oh size =
      .ok ((mkCreated dimension ow oh "" "" size).width,
           (mkCreated dimension ow oh "" "" size).height) := by
  by_cases hdim : dimension = "width" <;>
    simp only [feasible, constrainedOrig, hdim, if_true, if_false,
      decide_eq_true_eq, if_pos, if_neg, reduceIte] at h <;>
    simp [calcDims, mkCreated, hdim, not_lt.mpr h]

/-- The resolver `calcDims` fails exactly on infeasible sizes, with the reason of
`mkSkip`. -/
theorem calcDims_eq_of_infeasible (dimension : String) (ow oh size : Int)
    (h : feasible dimension ow oh size = false) :
    calcDims dimension ow oh size = .error (mkSkip dimension ow oh size).2 := by
  by_cases hdim : dimension = "width" <;>
    simp only [feasible, constrainedOrig, hdim, decide_eq_false_iff_not,
      not_le, reduceIte] at h <;>
    simp [calcDims, mkSkip, hdim, h]

/-- The per-size loop partitions the input sizes: created records are the
feasible sizes in input order, skip records the infeasible ones in input
order. -/
theorem processSizes_eq_partition (dimension : String) (ow oh : Int)
    (base_name extension : String) (sizes : List Int) :
    processSizes dimension ow oh base_name extension sizes =
      ((sizes.filter (feasible dimension ow oh)).map
        (mkCreated dimension ow oh base_name extension),
       (sizes.filter (fun s => !feasible dimension ow oh s)).map
        (mkSkip dimension ow oh)) := by
  induction sizes with
  | nil => rfl
  | cons s rest ih =>
    by_cases hfe : feasible dimension ow oh s
    · have hok := calcDims_eq_of_feasible dimension ow oh s hfe
      have hrec : mkCreated dimension ow oh base_name extension s =
          ⟨output_filename base_name extension s,
            (mkCreated dimension ow oh "" "" s).width,
            (mkCreated dimension ow oh "" "" s).height⟩ := by
        by_cases hdim : dimension = "width" <;> simp [mkCreated, hdim]
      simp [processSizes, hok, ih, hfe, hrec]
    · have herr := calcDims_eq_of_infeasible dimension ow oh s (by simpa using hfe)
      have hskip : mkSkip dimension ow oh s = (s, (mkSkip dimension ow oh s).2) := rfl
      simp [processSizes, herr, ih, hfe, ← hskip]

/-- Filtering a list by a Boolean predicate and by its negation splits the
length. -/
theorem length_filter_partition {α : Type} (p : α → Bool) (l : List α) :
    (l.filter p).length + (l.filter (fun a => !p a)).length = l.length := by
  induction l with
  | nil => rfl
  | cons a t ih =>
    by_cases h : p a <;> simp [List.filter, h, ← ih] <;> omega

/-- C2: every run of the per-size loop partitions the input sizes: the
created records are exactly the feasible sizes in input order, the skip
records exactly the infeasible ones in input order, and the two lengths
sum to the number of input sizes. -/
theorem resize_partitions_sizes (dimension : String) (ow oh : Int)
    (base_name extension : String) (sizes : List Int) :
    (processSizes dimension ow oh base_name extension sizes).1 =
      (sizes.filter (feasible dimension ow oh)).map
        (mkCreated dimension ow oh base_name extension) ∧
    (processSizes dimension ow oh base_name extension sizes).2 =
      (sizes.filter (fun s => !feasible dimension ow oh s)).map
        (mkSkip dimension ow oh) ∧
    (processSizes dimension ow oh base_name extension sizes).1.length +
      (processSizes dimension ow oh base_name extension sizes).2.length =
      sizes.length := by
  have h := processSizes_eq_partition dimension ow oh base_name extension sizes
  refine ⟨by rw [h], by rw [h], ?_⟩
  rw [h]
  simp only [List.length_map]
  exact length_filter_partition _ sizes

/-- C3: a target exceeding the constrained original dimension is recorded
as a skipped target with the reason naming the limiting dimension, is
never among the created records (no created record carries it as its
constrained output dimension), and processing continues with the
remaining targets unchanged. -/
theorem upscale_target_skipped (dimension : String) (ow oh : Int)
    (base_name extension : String) (sizes : List Int) (s : Int)
    (hmem : s ∈ sizes) (hgt : constrainedOrig dimension ow oh < s) :
    (s, if dimension = "width" then upscaleReasonWidth ow
        else upscaleReasonHeight oh) ∈
      (processSizes dimension ow oh base_name extension sizes).2 ∧
    (∀ cf ∈ (processSizes dimension ow oh base_name extension sizes).1,
      (if dimension = "width" then cf.width else cf.height) ≠ s) ∧
    processSizes dimension ow oh base_name extension (s :: sizes) =
      ((processSizes dimension ow oh base_name extension sizes).1,
       (s, if dimension = "width" then upscaleReasonWidth ow
           else upscaleReasonHeight oh) ::
         (processSizes dimension ow oh base_name extension sizes).2) := by
  have hinfe : feasible dimension ow oh s = false := by
    simp [feasible, not_le.mpr hgt]
  have hpart := processSizes_eq_partition dimension ow oh base_name extension sizes
  refine ⟨?_, ?_, ?_⟩
  · rw [hpart]
    simp only [List.mem_map, List.mem_filter]
    exact ⟨s, ⟨hmem, by simp [hinfe]⟩, by simp [mkSkip]⟩
  · intro cf hcf
    rw [hpart] at hcf
    simp only [List.mem_map, List.mem_filter] at hcf
    obtain ⟨s', ⟨_, hfe⟩, rfl⟩ := hcf
    have hle : s' ≤ constrainedOrig dimension ow oh := by
      simpa [feasible] using hfe
    have hgt' := hgt
    by_cases hdim : dimension = "width" <;>
      simp only [mkCreated, constrainedOrig, hdim, reduceIte] at hle hgt' ⊢ <;>
      omega
  · have herr := calcDims_eq_of_infeasible dimension ow oh s hinfe
    simp only [processSizes, herr]
    simp [mkSkip]

/-- C3 witness: Scenario A — a 1920×1080 source with width targets
[3840, 960]: target 3840 is skipped with reason
"original is only 1920px wide" and appears in no created record. -/
theorem upscale_target_skipped_witness :
    (3840, "original is only 1920px wide") ∈
      (processSizes "width" 1920 1080 "photo" ".jpg" [3840, 960]).2 ∧
    (∀ cf ∈ (processSizes "width" 1920 1080 "photo" ".jpg" [3840, 960]).1,
      (if ("width" : String) = "width" then cf.width else cf.height) ≠ 3840) := by
  have h := upscale_target_skipped "width" 1920 1080 "photo" ".jpg"
    [3840, 960] 3840 (by decide) (by decide)
  have hs : (if ("width" : String) = "width" then upscaleReasonWidth 1920
      else upscaleReasonHeight 1080) = "original is only 1920px wide" := by decide
  exact ⟨hs ▸ h.1, h.2.1⟩

/-! IEEE-754 double-precision model of the dimension arithmetic.

The source computes the derived dimension as
`int((size / orig_width) * orig_height)` (imagepro.py lines 84 and 90):
one correctly-rounded double division, one correctly-rounded double
multiplication (the integer operand itself converted to the nearest
double), then truncation toward zero.  The model below reproduces this
bit-for-bit for positive operands: a finite positive double is a pair
`(m, e)` of mantissa and exponent with value `m * 2^(e-52)`, and
`roundFrac a b` rounds the exact fraction `a / b` to the nearest such
pair, ties to even mantissa.  All computation is integer arithmetic, so
every concrete run evaluates by `decide`; `dval` gives the exact
rational value of a pair for the error analysis. -/

/-- Fuel-driven helper for `bitLen`; the fuel only bounds the recursion
depth. -/
def bitLenAux : Nat → Nat → Nat
  | 0, _ => 0
  | fuel+1, n => if n ≤ 1 then 0 else bitLenAux fuel (n / 2) + 1

/-- Position of the leading binary digit: `⌊log₂ n⌋` for `n ≥ 1`. -/
def bitLen (n : Nat) : Nat := bitLenAux n n

/-- The rational value `2 ^ k` for an integer exponent, as a single
fraction of natural powers. -/
def pow2Q (k : ℤ) : ℚ := ((2 ^ k.toNat : ℕ) : ℚ) / ((2 ^ (-k).toNat : ℕ) : ℚ)

/-- Nearest integer to `a / b` (for `b > 0`), ties to the even
candidate — the IEEE-754 rounding of a mantissa. -/
def rneInt (a b : ℤ) : ℤ :=
  let q := a / b
  let r := a % b
  if 2 * r < b then q
  else if b < 2 * r then q + 1
  else if q % 2 = 0 then q else q + 1

/-- Exponent `⌊log₂ (a/b)⌋` of a positive fraction, computed from the
bit lengths of numerator and denominator with one comparison to correct
the off-by-one. -/
def log2floorRat (a b : ℤ) : ℤ :=
  let e0 : ℤ := (bitLen a.toNat : ℤ) - (bitLen b.toNat : ℤ)
  if 0 ≤ e0 then (if b * 2 ^ e0.toNat ≤ a then e0 else e0 - 1)
  else (if b ≤ a * 2 ^ (-e0).toNat then e0 else e0 - 1)

/-- Mantissa of the double nearest `a / b` at exponent `e`: the nearest
integer to `(a/b) * 2^(52-e)`. -/
def mantissaAt (a b e : ℤ) : ℤ :=
  if e ≤ 52 then rneInt (a * 2 ^ (52 - e).toNat) b
  else rneInt a (b * 2 ^ (e - 52).toNat)

/-- The IEEE-754 double nearest to the positive fraction `a / b`, as a
mantissa/exponent pair with value `m * 2^(e-52)`. -/
def roundFrac (a b : ℤ) : ℤ × ℤ :=
  let e := log2floorRat a b
  (mantissaAt a b e, e)

/-- Exact rational value of a mantissa/exponent pair. -/
def dval (me : ℤ × ℤ) : ℚ := (me.1 : ℚ) * pow2Q (me.2 - 52)

/-- Fraction representing the exact product of the two rounded doubles
`fl(size/constrained)` and `fl(orthogonal)` — the input of the second
rounding. -/
def prodFrac (size constrained orthogonal : ℤ) : ℤ × ℤ :=
  let f1 := roundFrac size constrained
  let fo := roundFrac orthogonal 1
  let a2 := f1.1 * fo.1
  let sh := f1.2 + fo.2 - 104
  if 0 ≤ sh then (a2 * 2 ^ sh.toNat, 1) else (a2, 2 ^ (-sh).toNat)

/-- Bit-faithful model of `int((size / constrained) * orthogonal)` for
positive operands (imagepro.py lines 84/90): round the division, round
the multiplication, truncate toward zero. -/
def floatDerived (size constrained orthogonal : ℤ) : ℤ :=
  let p := prodFrac size constrained orthogonal
  let f2 := roundFrac p.1 p.2
  if 52 ≤ f2.2 then f2.1 * 2 ^ (f2.2 - 52).toNat
  else f2.1 / 2 ^ (52 - f2.2).toNat

/-- The dimension calculation of `resize_image` (imagepro.py lines 79-90)
under the bit-faithful IEEE-754 model: identical to `calcDims` except
that the derived dimension is computed by `floatDerived`, i.e. by the two
correctly-rounded double operations Python performs. -/
def calcDimsF (dimension : String) (orig_width orig_height size : Int) :
    Except String (Int × Int) :=
  if dimension = "width" then
    if size > orig_width then .error (upscaleReasonWidth orig_width)
    else .ok (size, floatDerived size orig_width orig_height)
  else
    if size > orig_height then .error (upscaleReasonHeight orig_height)
    else .ok (floatDerived size orig_height orig_width, size)

/-- Value identity for `pow2Q` as an integer power of two. -/
theorem pow2Q_eq (k : ℤ) : pow2Q k = (2 : ℚ) ^ k := by
  rcases le_or_lt 0 k with hk | hk
  · have h1 : (-k).toNat = 0 := by omega
    have h2 : ((2 ^ k.toNat : ℕ) : ℚ) = (2 : ℚ) ^ k.toNat := by push_cast; ring
    rw [pow2Q, h1, h2, ← zpow_natCast (2 : ℚ) k.toNat, Int.toNat_of_nonneg hk]
    norm_num
  · have h1 : k.toNat = 0 := by omega
    have h2 : ((2 ^ (-k).toNat : ℕ) : ℚ) = (2 : ℚ) ^ (-k).toNat := by push_cast; ring
    rw [pow2Q, h1, h2, ← zpow_natCast (2 : ℚ) (-k).toNat,
      Int.toNat_of_nonneg (by omega : (0:ℤ) ≤ -k)]
    rw [pow_zero, Nat.cast_one, one_div, ← zpow_neg, neg_neg]

/-- Positivity of `pow2Q`. -/
theorem pow2Q_pos (k : ℤ) : 0 < pow2Q k := by
  rw [pow2Q_eq]; positivity

/-- Additivity of `pow2Q` in the exponent. -/
theorem pow2Q_add (j k : ℤ) : pow2Q (j + k) = pow2Q j * pow2Q k := by
  rw [pow2Q_eq, pow2Q_eq, pow2Q_eq, zpow_add₀ (two_ne_zero)]

/-- Value of `pow2Q` at zero. -/
theorem pow2Q_zero : pow2Q 0 = 1 := by
  rw [pow2Q_eq]; norm_num

/-- Value of `pow2Q` at minus one. -/
theorem pow2Q_neg_one : pow2Q (-1) = 1/2 := by
  rw [pow2Q_eq]; norm_num

/-- Numeric value of the unit roundoff scale `2^(-53)`. -/
theorem pow2Q_neg53 : pow2Q (-53) = 1/9007199254740992 := by
  rw [pow2Q_eq]
  rw [show ((-53 : ℤ)) = -(53 : ℕ) by norm_num, zpow_neg, zpow_natCast]
  norm_num

/-- With enough fuel, `bitLenAux` brackets its argument between
consecutive powers of two. -/
theorem bitLenAux_bounds : ∀ fuel n, 1 ≤ n → n ≤ fuel →
    2 ^ bitLenAux fuel n ≤ n ∧ n < 2 ^ (bitLenAux fuel n + 1) := by
  intro fuel
  induction fuel with
  | zero => intro n h1 h2; omega
  | succ f ih =>
    intro n h1 h2
    by_cases hn : n ≤ 1
    · have hne : n = 1 := by omega
      subst hne
      simp [bitLenAux]
    · simp only [bitLenAux, if_neg hn]
      obtain ⟨hl, hu⟩ := ih (n / 2) (by omega) (by omega)
      have hp1 : 2 ^ (bitLenAux f (n/2) + 1) = 2 * 2 ^ bitLenAux f (n/2) := by
        rw [pow_succ]; ring
      have hp2 : 2 ^ (bitLenAux f (n/2) + 1 + 1) = 4 * 2 ^ bitLenAux f (n/2) := by
        rw [pow_succ, pow_succ]; ring
      rw [hp1] at hu
      rw [hp1, hp2]
      omega

/-- Bracketing of `n` between `2 ^ bitLen n` and `2 ^ (bitLen n + 1)`. -/
theorem bitLen_bounds {n : Nat} (hn : 1 ≤ n) :
    2 ^ bitLen n ≤ n ∧ n < 2 ^ (bitLen n + 1) :=
  bitLenAux_bounds n n hn le_rfl

/-- Round-to-nearest lands within half a unit of the exact quotient. -/
theorem rneInt_err {a b : ℤ} (hb : 0 < b) :
    |((rneInt a b : ℤ) : ℚ) - (a : ℚ) / b| ≤ 1/2 := by
  have hb' : (0 : ℚ) < b := by exact_mod_cast hb
  have hdm : (b : ℚ) * ((a / b : ℤ) : ℚ) + ((a % b : ℤ) : ℚ) = a := by
    exact_mod_cast Int.ediv_add_emod a b
  have hr0 : (0 : ℤ) ≤ a % b := Int.emod_nonneg a (ne_of_gt hb)
  have hrb : a % b < b := Int.emod_lt_of_pos a hb
  have hr0' : (0 : ℚ) ≤ ((a % b : ℤ) : ℚ) := by exact_mod_cast hr0
  have hrb' : ((a % b : ℤ) : ℚ) < b := by exact_mod_cast hrb
  have hval : (a : ℚ) / b = ((a / b : ℤ) : ℚ) + ((a % b : ℤ) : ℚ) / b := by
    field_simp
    linarith [hdm]
  unfold rneInt
  by_cases h1 : 2 * (a % b) < b
  · have hhalf : ((a % b : ℤ) : ℚ) / b < 1/2 := by
      rw [div_lt_div_iff₀ hb' (by norm_num)]
      have : ((2 * (a % b) : ℤ) : ℚ) < b := by exact_mod_cast h1
      push_cast at this ⊢
      linarith
    simp only [if_pos h1, hval]
    rw [show ((a / b : ℤ) : ℚ) - (((a / b : ℤ) : ℚ) + ((a % b : ℤ) : ℚ) / b) =
      -(((a % b : ℤ) : ℚ) / b) by ring, abs_neg,
      abs_of_nonneg (by positivity)]
    linarith
  · by_cases h2 : b < 2 * (a % b)
    · have hhalf : 1/2 ≤ ((a % b : ℤ) : ℚ) / b := by
        rw [div_le_div_iff₀ (by norm_num) hb']
        have : (b : ℚ) < ((2 * (a % b) : ℤ) : ℚ) := by exact_mod_cast h2
        push_cast at this ⊢
        linarith
      have hlt1 : ((a % b : ℤ) : ℚ) / b < 1 := by
        rw [div_lt_one hb']; exact hrb'
      simp only [if_neg h1, if_pos h2, hval]
      push_cast
      rw [show ((a / b : ℤ) : ℚ) + 1 - (((a / b : ℤ) : ℚ) + ((a % b : ℤ) : ℚ) / b) =
        1 - ((a % b : ℤ) : ℚ) / b by ring,
        abs_of_nonneg (by linarith)]
      linarith
    · have h3 : 2 * (a % b) = b := by omega
      have hhalf : ((a % b : ℤ) : ℚ) / b = 1/2 := by
        rw [div_eq_div_iff hb'.ne' (by norm_num : (2:ℚ) ≠ 0)]
        have : ((2 * (a % b) : ℤ) : ℚ) = b := by exact_mod_cast h3
        push_cast at this ⊢
        linarith
      by_cases hpar : (a / b) % 2 = 0
      · simp only [if_neg h1, if_neg h2, if_pos hpar, hval, hhalf]
        rw [show ((a / b : ℤ) : ℚ) - (((a / b : ℤ) : ℚ) + 1/2) = -(1/2) by ring, abs_neg,
          abs_of_nonneg (by norm_num : (0:ℚ) ≤ 1/2)]
      · simp only [if_neg h1, if_neg h2, if_neg hpar, hval, hhalf]
        push_cast
        rw [show ((a / b : ℤ) : ℚ) + 1 - (((a / b : ℤ) : ℚ) + 1/2) = 1/2 by ring,
          abs_of_nonneg (by norm_num : (0:ℚ) ≤ 1/2)]

/-- Integer test deciding `2^e ≤ a/b`, nonnegative-exponent case. -/
theorem pow2Q_le_frac_iff {e a b : ℤ} (hb : 0 < b) (he : 0 ≤ e) :
    b * 2 ^ e.toNat ≤ a ↔ pow2Q e ≤ (a : ℚ) / b := by
  have hb' : (0 : ℚ) < b := by exact_mod_cast hb
  have h1 : (-e).toNat = 0 := by omega
  rw [pow2Q, h1, le_div_iff₀ hb']
  rw [pow_zero, Nat.cast_one, div_one]
  constructor
  · intro h
    have : ((b * 2 ^ e.toNat : ℤ) : ℚ) ≤ a := by exact_mod_cast h
    push_cast at this ⊢
    linarith
  · intro h
    have : ((2 ^ e.toNat : ℕ) : ℚ) * b ≤ a := h
    have h2 : ((b * 2 ^ e.toNat : ℤ) : ℚ) ≤ ((a : ℤ) : ℚ) := by
      push_cast at this ⊢
      linarith
    exact_mod_cast h2

/-- Integer test deciding `2^e ≤ a/b`, negative-exponent case. -/
theorem pow2Q_le_frac_iff_neg {e a b : ℤ} (hb : 0 < b) (he : e < 0) :
    b ≤ a * 2 ^ (-e).toNat ↔ pow2Q e ≤ (a : ℚ) / b := by
  have hb' : (0 : ℚ) < b := by exact_mod_cast hb
  have hK : (0 : ℚ) < ((2 ^ (-e).toNat : ℕ) : ℚ) := by positivity
  have h1 : e.toNat = 0 := by omega
  rw [pow2Q, h1]
  rw [pow_zero, Nat.cast_one]
  rw [div_le_div_iff₀ hK hb']
  constructor
  · intro h
    have : ((b : ℤ) : ℚ) ≤ ((a * 2 ^ (-e).toNat : ℤ) : ℚ) := by exact_mod_cast h
    push_cast at this ⊢
    linarith
  · intro h
    have h2 : ((b : ℤ) : ℚ) ≤ ((a * 2 ^ (-e).toNat : ℤ) : ℚ) := by
      push_cast at h ⊢
      linarith
    exact_mod_cast h2

/-- The computed exponent brackets the positive fraction between
consecutive powers of two. -/
theorem log2floorRat_bounds {a b : ℤ} (ha : 0 < a) (hb : 0 < b) :
    pow2Q (log2floorRat a b) ≤ (a : ℚ) / b ∧
      (a : ℚ) / b < pow2Q (log2floorRat a b + 1) := by
  have ha' : (0 : ℚ) < a := by exact_mod_cast ha
  have hb' : (0 : ℚ) < b := by exact_mod_cast hb
  have haN : 1 ≤ a.toNat := by omega
  have hbN : 1 ≤ b.toNat := by omega
  obtain ⟨hal, hau⟩ := bitLen_bounds haN
  obtain ⟨hbl, hbu⟩ := bitLen_bounds hbN
  set La := bitLen a.toNat with hLa
  set Lb := bitLen b.toNat with hLb
  have hacast : ((a.toNat : ℕ) : ℚ) = (a : ℚ) := by
    rw [← Int.cast_natCast (R := ℚ), Int.toNat_of_nonneg ha.le]
  have hbcast : ((b.toNat : ℕ) : ℚ) = (b : ℚ) := by
    rw [← Int.cast_natCast (R := ℚ), Int.toNat_of_nonneg hb.le]
  have haQl : (2 : ℚ) ^ (La : ℤ) ≤ a := by
    rw [zpow_natCast]
    calc ((2:ℚ)) ^ La = ((2 ^ La : ℕ) : ℚ) := by push_cast; ring
      _ ≤ ((a.toNat : ℕ) : ℚ) := by exact_mod_cast hal
      _ = (a : ℚ) := hacast
  have haQu : (a : ℚ) < (2 : ℚ) ^ ((La : ℤ) + 1) := by
    rw [show ((La : ℤ) + 1) = ((La + 1 : ℕ) : ℤ) by push_cast; ring, zpow_natCast]
    calc (a : ℚ) = ((a.toNat : ℕ) : ℚ) := hacast.symm
      _ < ((2 ^ (La + 1) : ℕ) : ℚ) := by exact_mod_cast hau
      _ = (2:ℚ) ^ (La + 1) := by push_cast; ring
  have hbQl : (2 : ℚ) ^ (Lb : ℤ) ≤ b := by
    rw [zpow_natCast]
    calc ((2:ℚ)) ^ Lb = ((2 ^ Lb : ℕ) : ℚ) := by push_cast; ring
      _ ≤ ((b.toNat : ℕ) : ℚ) := by exact_mod_cast hbl
      _ = (b : ℚ) := hbcast
  have hbQu : (b : ℚ) < (2 : ℚ) ^ ((Lb : ℤ) + 1) := by
    rw [show ((Lb : ℤ) + 1) = ((Lb + 1 : ℕ) : ℤ) by push_cast; ring, zpow_natCast]
    calc (b : ℚ) = ((b.toNat : ℕ) : ℚ) := hbcast.symm
      _ < ((2 ^ (Lb + 1) : ℕ) : ℚ) := by exact_mod_cast hbu
      _ = (2:ℚ) ^ (Lb + 1) := by push_cast; ring
  set e0 : ℤ := (La : ℤ) - (Lb : ℤ) with he0
  have hq_up : (a : ℚ) / b < (2 : ℚ) ^ (e0 + 1) := by
    rw [div_lt_iff₀ hb']
    calc (a : ℚ) < 2 ^ ((La : ℤ) + 1) := haQu
      _ = 2 ^ (e0 + 1) * 2 ^ (Lb : ℤ) := by
          rw [← zpow_add₀ (two_ne_zero : (2:ℚ) ≠ 0)]
          congr 1
          omega
      _ ≤ 2 ^ (e0 + 1) * b := by
          have := zpow_pos (show (0:ℚ) < 2 by norm_num) (e0 + 1)
          nlinarith [hbQl]
  have hq_low : (2 : ℚ) ^ (e0 - 1) < (a : ℚ) / b := by
    rw [lt_div_iff₀ hb']
    calc (2 : ℚ) ^ (e0 - 1) * b < 2 ^ (e0 - 1) * 2 ^ ((Lb : ℤ) + 1) := by
          have := zpow_pos (show (0:ℚ) < 2 by norm_num) (e0 - 1)
          nlinarith [hbQu]
      _ = 2 ^ (La : ℤ) := by
          rw [← zpow_add₀ (two_ne_zero : (2:ℚ) ≠ 0)]
          congr 1
          omega
      _ ≤ a := haQl
  show pow2Q (log2floorRat a b) ≤ (a : ℚ) / b ∧
      (a : ℚ) / b < pow2Q (log2floorRat a b + 1)
  have hdef : log2floorRat a b =
      (if 0 ≤ e0 then (if b * 2 ^ e0.toNat ≤ a then e0 else e0 - 1)
       else (if b ≤ a * 2 ^ (-e0).toNat then e0 else e0 - 1)) := rfl
  by_cases h0 : 0 ≤ e0
  · rw [hdef, if_pos h0]
    by_cases hcond : b * 2 ^ e0.toNat ≤ a
    · rw [if_pos hcond]
      refine ⟨(pow2Q_le_frac_iff hb h0).mp hcond, ?_⟩
      rw [pow2Q_eq]
      exact hq_up
    · rw [if_neg hcond]
      have hlt : (a : ℚ) / b < pow2Q e0 := by
        have := (pow2Q_le_frac_iff hb h0).not.mp hcond
        exact lt_of_not_le (fun hle => this hle)
      constructor
      · rw [pow2Q_eq]
        exact le_of_lt hq_low
      · rw [show e0 - 1 + 1 = e0 by ring]
        exact hlt
  · rw [hdef, if_neg h0]
    have h0' : e0 < 0 := by omega
    by_cases hcond : b ≤ a * 2 ^ (-e0).toNat
    · rw [if_pos hcond]
      refine ⟨(pow2Q_le_frac_iff_neg hb h0').mp hcond, ?_⟩
      rw [pow2Q_eq]
      exact hq_up
    · rw [if_neg hcond]
      have hlt : (a : ℚ) / b < pow2Q e0 := by
        have := (pow2Q_le_frac_iff_neg hb h0').not.mp hcond
        exact lt_of_not_le (fun hle => this hle)
      constructor
      · rw [pow2Q_eq]
        exact le_of_lt hq_low
      · rw [show e0 - 1 + 1 = e0 by ring]
        exact hlt

/-- The mantissa at exponent `e` is within half a unit of the scaled
fraction. -/
theorem mantissaAt_err {a b : ℤ} (e : ℤ) (hb : 0 < b) :
    |((mantissaAt a b e : ℤ) : ℚ) - (a : ℚ) / b * pow2Q (52 - e)| ≤ 1/2 := by
  have hb' : (0 : ℚ) < b := by exact_mod_cast hb
  unfold mantissaAt
  by_cases he : e ≤ 52
  · rw [if_pos he]
    have hval : ((a * 2 ^ (52 - e).toNat : ℤ) : ℚ) / b = (a : ℚ) / b * pow2Q (52 - e) := by
      have h0 : (-(52 - e)).toNat = 0 := by omega
      rw [pow2Q, h0, pow_zero, Nat.cast_one, div_one]
      push_cast
      ring
    rw [← hval]
    exact rneInt_err hb
  · rw [if_neg he]
    have hbK : (0 : ℤ) < b * 2 ^ (e - 52).toNat := by positivity
    have hval : (a : ℚ) / ((b * 2 ^ (e - 52).toNat : ℤ) : ℚ) =
        (a : ℚ) / b * pow2Q (52 - e) := by
      have h0 : (52 - e).toNat = 0 := by omega
      rw [pow2Q, h0, pow_zero, Nat.cast_one]
      have hK : (0 : ℚ) < ((2 ^ (e - 52).toNat : ℕ) : ℚ) := by positivity
      push_cast
      field_simp
    rw [← hval]
    exact rneInt_err hbK

/-- Relative error of one correctly-rounded double operation: at most
`2^(-53)` of the exact positive value. -/
theorem roundFrac_err {a b : ℤ} (ha : 0 < a) (hb : 0 < b) :
    |dval (roundFrac a b) - (a : ℚ) / b| ≤ (a : ℚ) / b * pow2Q (-53) := by
  obtain ⟨hlow, hup⟩ := log2floorRat_bounds ha hb
  set e := log2floorRat a b with hedef
  have hm := mantissaAt_err (a := a) e hb
  have hdval : dval (roundFrac a b) = ((mantissaAt a b e : ℤ) : ℚ) * pow2Q (e - 52) := rfl
  have hx : (a : ℚ) / b * pow2Q (52 - e) * pow2Q (e - 52) = (a : ℚ) / b := by
    rw [mul_assoc, ← pow2Q_add, show (52 - e) + (e - 52) = 0 by ring, pow2Q_zero, mul_one]
  have hp := pow2Q_pos (e - 52)
  have key : dval (roundFrac a b) - (a : ℚ) / b =
      (((mantissaAt a b e : ℤ) : ℚ) - (a : ℚ) / b * pow2Q (52 - e)) * pow2Q (e - 52) := by
    rw [hdval, sub_mul, hx]
  calc |dval (roundFrac a b) - (a : ℚ) / b|
      = |((mantissaAt a b e : ℤ) : ℚ) - (a : ℚ) / b * pow2Q (52 - e)| * pow2Q (e - 52) := by
        rw [key, abs_mul, abs_of_pos hp]
    _ ≤ (1/2) * pow2Q (e - 52) := mul_le_mul_of_nonneg_right hm hp.le
    _ = pow2Q (-1) * pow2Q (e - 52) := by rw [pow2Q_neg_one]
    _ = pow2Q e * pow2Q (-53) := by
        rw [← pow2Q_add, ← pow2Q_add, show (-1) + (e - 52) = e + (-53) by ring]
    _ ≤ (a : ℚ) / b * pow2Q (-53) :=
        mul_le_mul_of_nonneg_right hlow (pow2Q_pos _).le

/-- Lower bound of the rounded value. -/
theorem dval_roundFrac_lower {a b : ℤ} (ha : 0 < a) (hb : 0 < b) :
    (a : ℚ) / b * (1 - pow2Q (-53)) ≤ dval (roundFrac a b) := by
  have h := abs_le.mp (roundFrac_err ha hb)
  linarith [h.1]

/-- Upper bound of the rounded value. -/
theorem dval_roundFrac_upper {a b : ℤ} (ha : 0 < a) (hb : 0 < b) :
    dval (roundFrac a b) ≤ (a : ℚ) / b * (1 + pow2Q (-53)) := by
  have h := abs_le.mp (roundFrac_err ha hb)
  linarith [h.2]

/-- A rounded positive fraction stays positive. -/
theorem dval_roundFrac_pos {a b : ℤ} (ha : 0 < a) (hb : 0 < b) :
    0 < dval (roundFrac a b) := by
  have hl := dval_roundFrac_lower ha hb
  have hq : (0 : ℚ) < (a : ℚ) / b := by
    have ha' : (0 : ℚ) < a := by exact_mod_cast ha
    have hb' : (0 : ℚ) < b := by exact_mod_cast hb
    positivity
  have hu : pow2Q (-53 : ℤ) < 1 := by rw [pow2Q_neg53]; norm_num
  nlinarith [hl, hq, hu]

/-- The mantissa of a rounded positive fraction is positive. -/
theorem roundFrac_m_pos {a b : ℤ} (ha : 0 < a) (hb : 0 < b) :
    0 < (roundFrac a b).1 := by
  have h := dval_roundFrac_pos ha hb
  have hp := pow2Q_pos ((roundFrac a b).2 - 52)
  have hm : (0 : ℚ) < ((roundFrac a b).1 : ℚ) := by
    by_contra hneg
    push_neg at hneg
    have : dval (roundFrac a b) ≤ 0 := by
      unfold dval
      exact mul_nonpos_of_nonpos_of_nonneg hneg hp.le
    linarith
  exact_mod_cast hm

/-- The product fraction has positive components and the exact value of
the product of the two rounded doubles. -/
theorem prodFrac_spec {s c o : ℤ} (hs : 0 < s) (hc : 0 < c) (ho : 0 < o) :
    0 < (prodFrac s c o).1 ∧ 0 < (prodFrac s c o).2 ∧
      ((prodFrac s c o).1 : ℚ) / ((prodFrac s c o).2 : ℚ) =
        dval (roundFrac s c) * dval (roundFrac o 1) := by
  have hm1 := roundFrac_m_pos hs hc
  have hmo := roundFrac_m_pos ho one_pos
  set f1 := roundFrac s c with hf1
  set fo := roundFrac o 1 with hfo
  have ha2 : 0 < f1.1 * fo.1 := mul_pos hm1 hmo
  have hvv : dval f1 * dval fo = ((f1.1 * fo.1 : ℤ) : ℚ) * pow2Q (f1.2 + fo.2 - 104) := by
    unfold dval
    rw [show f1.2 + fo.2 - 104 = (f1.2 - 52) + (fo.2 - 52) by ring, pow2Q_add]
    push_cast
    ring
  unfold prodFrac
  rw [← hf1, ← hfo]
  by_cases hsh : 0 ≤ f1.2 + fo.2 - 104
  · rw [if_pos hsh]
    refine ⟨by positivity, by norm_num, ?_⟩
    rw [hvv]
    have hpw : pow2Q (f1.2 + fo.2 - 104) = ((2 ^ (f1.2 + fo.2 - 104).toNat : ℕ) : ℚ) := by
      have h0 : (-(f1.2 + fo.2 - 104)).toNat = 0 := by omega
      rw [pow2Q, h0, pow_zero, Nat.cast_one, div_one]
    rw [hpw]
    push_cast
    ring
  · rw [if_neg hsh]
    refine ⟨ha2, by positivity, ?_⟩
    rw [hvv]
    have hpw : pow2Q (f1.2 + fo.2 - 104) =
        1 / ((2 ^ (-(f1.2 + fo.2 - 104)).toNat : ℕ) : ℚ) := by
      have h0 : (f1.2 + fo.2 - 104).toNat = 0 := by omega
      rw [pow2Q, h0, pow_zero, Nat.cast_one]
    rw [hpw]
    have hK : (0 : ℚ) < ((2 ^ (-(f1.2 + fo.2 - 104)).toNat : ℕ) : ℚ) := by positivity
    push_cast
    field_simp

/-- The final truncation step of `floatDerived` is the floor of the value
of the second rounding (the value is positive). -/
theorem floatDerived_floor {s c o : ℤ} (hs : 0 < s) (hc : 0 < c) (ho : 0 < o) :
    floatDerived s c o =
      ⌊dval (roundFrac (prodFrac s c o).1 (prodFrac s c o).2)⌋ := by
  obtain ⟨hp1, hp2, hval⟩ := prodFrac_spec hs hc ho
  have hm2 := roundFrac_m_pos hp1 hp2
  set p := prodFrac s c o with hp
  set f2 := roundFrac p.1 p.2 with hf2
  show (if 52 ≤ f2.2 then f2.1 * 2 ^ (f2.2 - 52).toNat
        else f2.1 / 2 ^ (52 - f2.2).toNat) = ⌊dval f2⌋
  by_cases h52 : 52 ≤ f2.2
  · rw [if_pos h52]
    have hdv : dval f2 = ((f2.1 * 2 ^ (f2.2 - 52).toNat : ℤ) : ℚ) := by
      unfold dval
      have hpw : pow2Q (f2.2 - 52) = ((2 ^ (f2.2 - 52).toNat : ℕ) : ℚ) := by
        have h0 : (-(f2.2 - 52)).toNat = 0 := by omega
        rw [pow2Q, h0, pow_zero, Nat.cast_one, div_one]
      rw [hpw]
      push_cast
      ring
    rw [hdv, Int.floor_intCast]
  · rw [if_neg h52]
    have hdv : dval f2 = (f2.1 : ℚ) / ((2 ^ (52 - f2.2).toNat : ℕ) : ℚ) := by
      unfold dval
      have hpw : pow2Q (f2.2 - 52) = 1 / ((2 ^ (-(f2.2 - 52)).toNat : ℕ) : ℚ) := by
        have h0 : (f2.2 - 52).toNat = 0 := by omega
        rw [pow2Q, h0, pow_zero, Nat.cast_one]
      have hneg : (-(f2.2 - 52)) = 52 - f2.2 := by ring
      rw [hpw, hneg]
      ring
    rw [hdv, Rat.floor_intCast_div_natCast]
    push_cast
    ring

/-- Three correctly-rounded operations keep the value within the cube of
the unit factor on either side of the exact product. -/
theorem floatDerived_bounds {s c o : ℤ} (hs : 0 < s) (hc : 0 < c) (ho : 0 < o) :
    ((s : ℚ) / c * o) * ((1 - pow2Q (-53)) * ((1 - pow2Q (-53)) * (1 - pow2Q (-53)))) ≤
      dval (roundFrac (prodFrac s c o).1 (prodFrac s c o).2) ∧
    dval (roundFrac (prodFrac s c o).1 (prodFrac s c o).2) ≤
      ((s : ℚ) / c * o) * ((1 + pow2Q (-53)) * ((1 + pow2Q (-53)) * (1 + pow2Q (-53)))) := by
  obtain ⟨hp1, hp2, hval⟩ := prodFrac_spec hs hc ho
  have hs' : (0 : ℚ) < s := by exact_mod_cast hs
  have hc' : (0 : ℚ) < c := by exact_mod_cast hc
  have ho' : (0 : ℚ) < o := by exact_mod_cast ho
  have hu0 : (0 : ℚ) < pow2Q (-53) := pow2Q_pos _
  have hu1 : pow2Q (-53) < 1 := by rw [pow2Q_neg53]; norm_num
  have hx : (0 : ℚ) < (s : ℚ) / c := by positivity
  have hf1l := dval_roundFrac_lower hs hc
  have hf1u := dval_roundFrac_upper hs hc
  have hf1p := dval_roundFrac_pos hs hc
  have hfol : (o : ℚ) * (1 - pow2Q (-53)) ≤ dval (roundFrac o 1) := by
    have := dval_roundFrac_lower ho one_pos
    simpa using this
  have hfou : dval (roundFrac o 1) ≤ (o : ℚ) * (1 + pow2Q (-53)) := by
    have := dval_roundFrac_upper ho one_pos
    simpa using this
  have hfop := dval_roundFrac_pos ho one_pos
  have hf2l := dval_roundFrac_lower hp1 hp2
  have hf2u := dval_roundFrac_upper hp1 hp2
  rw [hval] at hf2l hf2u
  have hXl : ((s : ℚ) / c * (1 - pow2Q (-53))) * ((o : ℚ) * (1 - pow2Q (-53))) ≤
      dval (roundFrac s c) * dval (roundFrac o 1) :=
    mul_le_mul hf1l hfol (by nlinarith) hf1p.le
  have hXu : dval (roundFrac s c) * dval (roundFrac o 1) ≤
      ((s : ℚ) / c * (1 + pow2Q (-53))) * ((o : ℚ) * (1 + pow2Q (-53))) :=
    mul_le_mul hf1u hfou hfop.le (by nlinarith)
  constructor
  · calc ((s : ℚ) / c * o) * ((1 - pow2Q (-53)) * ((1 - pow2Q (-53)) * (1 - pow2Q (-53))))
        = (((s : ℚ) / c * (1 - pow2Q (-53))) * ((o : ℚ) * (1 - pow2Q (-53)))) *
            (1 - pow2Q (-53)) := by ring
      _ ≤ (dval (roundFrac s c) * dval (roundFrac o 1)) * (1 - pow2Q (-53)) :=
          mul_le_mul_of_nonneg_right hXl (by linarith)
      _ ≤ dval (roundFrac (prodFrac s c o).1 (prodFrac s c o).2) := hf2l
  · calc dval (roundFrac (prodFrac s c o).1 (prodFrac s c o).2)
        ≤ (dval (roundFrac s c) * dval (roundFrac o 1)) * (1 + pow2Q (-53)) := hf2u
      _ ≤ (((s : ℚ) / c * (1 + pow2Q (-53))) * ((o : ℚ) * (1 + pow2Q (-53)))) *
            (1 + pow2Q (-53)) := mul_le_mul_of_nonneg_right hXu (by linarith)
      _ = ((s : ℚ) / c * o) * ((1 + pow2Q (-53)) * ((1 + pow2Q (-53)) * (1 + pow2Q (-53)))) := by
          ring

/-- Once the exact product is at least 2, the rounding slack cannot drag
the truncated result below 1. -/
theorem floatDerived_ge_one {s c o : ℤ} (hs : 0 < s) (hc : 0 < c) (ho : 0 < o)
    (hv : 2 * c ≤ s * o) : 1 ≤ floatDerived s c o := by
  rw [floatDerived_floor hs hc ho]
  rw [Int.le_floor]
  have hb := (floatDerived_bounds hs hc ho).1
  have hc' : (0 : ℚ) < c := by exact_mod_cast hc
  have hvQ : (2 : ℚ) ≤ (s : ℚ) / c * o := by
    rw [div_mul_eq_mul_div, le_div_iff₀ hc']
    have : ((2 * c : ℤ) : ℚ) ≤ ((s * o : ℤ) : ℚ) := by exact_mod_cast hv
    push_cast at this
    linarith
  rw [pow2Q_neg53] at hb
  have hv0 : (0 : ℚ) < (s : ℚ) / c * o := by
    have hs' : (0 : ℚ) < s := by exact_mod_cast hs
    have ho' : (0 : ℚ) < o := by exact_mod_cast ho
    positivity
  push_cast
  nlinarith [hb, hvQ, hv0]

/-- For exact products below `2^51` the truncated double result is within
one of the exact floor, and the ratio within `2` parts per target size. -/
theorem floatDerived_near_floor {s c o : ℤ} (hs : 0 < s) (hc : 0 < c) (ho : 0 < o)
    (hmag : s * o < 2251799813685248 * c) :
    |floatDerived s c o - ⌊(s : ℚ) * o / c⌋| ≤ 1 ∧
    |((floatDerived s c o : ℤ) : ℚ) / s - (o : ℚ) / c| < 2 / s := by
  have hs' : (0 : ℚ) < s := by exact_mod_cast hs
  have hc' : (0 : ℚ) < c := by exact_mod_cast hc
  have ho' : (0 : ℚ) < o := by exact_mod_cast ho
  set v : ℚ := (s : ℚ) / c * o with hvdef
  have hveq : (s : ℚ) * o / c = v := by rw [hvdef]; ring
  have hv0 : (0 : ℚ) < v := by rw [hvdef]; positivity
  have hvQ : v < 2251799813685248 := by
    rw [hvdef, div_mul_eq_mul_div, div_lt_iff₀ hc']
    have : ((s * o : ℤ) : ℚ) < ((2251799813685248 * c : ℤ) : ℚ) := by exact_mod_cast hmag
    push_cast at this
    linarith
  have hb := floatDerived_bounds hs hc ho
  rw [pow2Q_neg53] at hb
  set P : ℚ := dval (roundFrac (prodFrac s c o).1 (prodFrac s c o).2) with hPdef
  have hfl : floatDerived s c o = ⌊P⌋ := floatDerived_floor hs hc ho
  have hup : P ≤ v + 4/5 := by linarith [hb.2, hvQ, hv0]
  have hlow : v - 4/5 ≤ P := by linarith [hb.1, hvQ, hv0]
  have hPfl1 : (⌊P⌋ : ℚ) ≤ P := Int.floor_le P
  have hPfl2 : P < (⌊P⌋ : ℚ) + 1 := Int.lt_floor_add_one P
  have hvfl1 : (⌊v⌋ : ℚ) ≤ v := Int.floor_le v
  have hvfl2 : v < (⌊v⌋ : ℚ) + 1 := Int.lt_floor_add_one v
  have h1 : ⌊v⌋ - 1 ≤ ⌊P⌋ := by
    rw [Int.le_floor]
    push_cast
    linarith
  have h2 : ⌊P⌋ ≤ ⌊v⌋ + 1 := by
    have : (⌊P⌋ : ℚ) < (⌊v⌋ : ℚ) + 2 := by linarith
    have h' : ⌊P⌋ < ⌊v⌋ + 2 := by exact_mod_cast this
    omega
  constructor
  · rw [hfl, hveq]
    rw [abs_le]
    omega
  · rw [hfl]
    have hoc : (o : ℚ) / c = v / s := by
      rw [hvdef]
      field_simp
      ring
    rw [hoc, div_sub_div_same, abs_div, abs_of_pos hs']
    have htv : |(⌊P⌋ : ℚ) - v| < 2 := by
      rw [abs_lt]
      constructor <;> linarith
    rw [div_lt_div_iff₀ hs' hs']
    nlinarith [htv, hs']

/-- C1 (amended): for a feasible target with positive inputs, the
constrained output dimension equals the target size and is ≥ 1, and both
output dimensions are ≥ 1 provided additionally
`targetSize * orthogonalOriginal ≥ 2 * constrainedOriginal` (the factor
two absorbs the floating-point rounding of the two double operations);
without such a margin the derived dimension can be 0 (see the
counterexample). -/
theorem feasible_dims_ge_one (dimension : String) (ow oh s : Int)
    (hs : 0 < s) (hc : 0 < constrainedOrig dimension ow oh)
    (ho : 0 < orthogonalOrig dimension ow oh)
    (hfe : s ≤ constrainedOrig dimension ow oh)
    (hbig : 2 * constrainedOrig dimension ow oh ≤
      s * orthogonalOrig dimension ow oh) :
    ∃ nw nh, calcDimsF dimension ow oh s = .ok (nw, nh) ∧ 1 ≤ nw ∧ 1 ≤ nh := by
  by_cases hdim : dimension = "width"
  · have hc' : 0 < ow := by simpa [constrainedOrig, hdim] using hc
    have ho' : 0 < oh := by simpa [orthogonalOrig, hdim] using ho
    have hfe' : ¬ (s > ow) := by
      simp only [constrainedOrig, hdim, reduceIte] at hfe
      omega
    have hbig' : 2 * ow ≤ s * oh := by
      simpa [constrainedOrig, orthogonalOrig, hdim] using hbig
    refine ⟨s, floatDerived s ow oh, ?_, hs,
      floatDerived_ge_one hs hc' ho' hbig'⟩
    simp [calcDimsF, hdim, hfe']
  · have hc' : 0 < oh := by simpa [constrainedOrig, hdim] using hc
    have ho' : 0 < ow := by simpa [orthogonalOrig, hdim] using ho
    have hfe' : ¬ (s > oh) := by
      simp only [constrainedOrig, hdim, reduceIte] at hfe
      omega
    have hbig' : 2 * oh ≤ s * ow := by
      simpa [constrainedOrig, orthogonalOrig, hdim] using hbig
    refine ⟨floatDerived s oh ow, s, ?_, floatDerived_ge_one hs hc' ho' hbig', hs⟩
    simp [calcDimsF, hdim, hfe']

/-- C1 witness: a 1920×1080 source with width target 960 satisfies the
hypotheses (960·1080 ≥ 2·1920) and both output dimensions are ≥ 1. -/
theorem feasible_dims_ge_one_witness :
    ∃ nw nh, calcDimsF "width" 1920 1080 960 = .ok (nw, nh) ∧ 1 ≤ nw ∧ 1 ≤ nh :=
  feasible_dims_ge_one "width" 1920 1080 960 (by decide) (by decide)
    (by decide) (by decide) (by decide)

/-- C1 counterexample: width target 1 on a 1920×1080 source is feasible
(positive inputs, `1 ≤ 1920`) yet the derived output height is `0 < 1`,
both under the exact-arithmetic reading (`calcDims`) and under the
bit-faithful IEEE-754 model (`calcDimsF`): the claimed guarantee
`min(outputWidth, outputHeight) ≥ 1` fails.  The final conjuncts show the
margin `targetSize * orthogonal ≥ constrained` would not be enough under
the doubles: at a 49×49 source with width target 1 it holds (`49 ≤ 1·49`)
yet `int((1/49)*49)` is still 0, because `(1/49)*49` rounds to just below
one — hence the factor two in the amended claim. -/
theorem feasible_dims_ge_one_counterexample :
    (0 : Int) < 1 ∧ (0 : Int) < 1920 ∧ (0 : Int) < 1080 ∧ (1 : Int) ≤ 1920 ∧
    calcDims "width" 1920 1080 1 = .ok (1, 0) ∧
    calcDimsF "width" 1920 1080 1 = .ok (1, 0) ∧ ¬ ((1 : Int) ≤ 0) ∧
    (49 : Int) ≤ 1 * 49 ∧ calcDimsF "width" 49 49 1 = .ok (1, 0) := by
  exact ⟨by decide, by decide, by decide, by decide, rfl, rfl, by decide,
    by decide, rfl⟩

/-- C4 (amended): for a feasible target with positive inputs of realistic
magnitude (`targetSize * orthogonalOriginal < 2^51 * constrainedOriginal`),
the derived orthogonal dimension — truncation of the two
correctly-rounded double operations — differs from the integer floor of
the exact real product `targetSize * orthogonalOriginal /
constrainedOriginal` by at most one, and the output ratio deviates from
the original ratio by strictly less than `2 / targetSize`: two pixels of
rounding tolerance rather than the claimed one, because the double
rounding can cross an integer boundary (see the counterexample). -/
theorem derived_dim_floor_aspect (dimension : String) (ow oh s : Int)
    (hs : 0 < s) (hc : 0 < constrainedOrig dimension ow oh)
    (ho : 0 < orthogonalOrig dimension ow oh)
    (hfe : s ≤ constrainedOrig dimension ow oh)
    (hmag : s * orthogonalOrig dimension ow oh <
      2251799813685248 * constrainedOrig dimension ow oh) :
    calcDimsF dimension ow oh s =
      .ok (if dimension = "width"
           then (s, floatDerived s (constrainedOrig dimension ow oh)
                      (orthogonalOrig dimension ow oh))
           else (floatDerived s (constrainedOrig dimension ow oh)
                   (orthogonalOrig dimension ow oh), s)) ∧
    |floatDerived s (constrainedOrig dimension ow oh)
        (orthogonalOrig dimension ow oh) -
      ⌊(s : ℚ) * (orthogonalOrig dimension ow oh : ℚ) /
        (constrainedOrig dimension ow oh : ℚ)⌋| ≤ 1 ∧
    |((floatDerived s (constrainedOrig dimension ow oh)
        (orthogonalOrig dimension ow oh) : ℤ) : ℚ) / (s : ℚ) -
      (orthogonalOrig dimension ow oh : ℚ) /
        (constrainedOrig dimension ow oh : ℚ)| < 2 / (s : ℚ) := by
  have hnf := floatDerived_near_floor hs hc ho hmag
  refine ⟨?_, hnf.1, hnf.2⟩
  by_cases hdim : dimension = "width"
  · have hfe' : ¬ (s > ow) := by
      simp only [constrainedOrig, hdim, reduceIte] at hfe
      omega
    simp [calcDimsF, constrainedOrig, orthogonalOrig, hdim, hfe']
  · have hfe' : ¬ (s > oh) := by
      simp only [constrainedOrig, hdim, reduceIte] at hfe
      omega
    simp [calcDimsF, constrainedOrig, orthogonalOrig, hdim, hfe']

/-- C4 counterexample: at an 819×819 source with width target 248 the
derived dimension computed through the doubles is 247 — Python evaluates
`int((248/819)*819)` to 247 because `(248/819)*819` rounds to just below
248 — while the floor of the exact product is 248, and the aspect
deviation is exactly `1/248`, not strictly less than one pixel: both
parts of the claim fail on the program. -/
theorem derived_dim_floor_aspect_counterexample :
    (0 : Int) < 248 ∧ (248 : Int) ≤ 819 ∧
    calcDimsF "width" 819 819 248 = .ok (248, 247) ∧
    (⌊((248 : ℚ) * 819) / 819⌋ = 248) ∧
    ¬ (|((247 : ℤ) : ℚ) / 248 - (819 : ℚ) / 819| < 1 / 248) := by
  refine ⟨by decide, by decide, rfl, ?_, ?_⟩
  · rw [show ((248 : ℚ) * 819) / 819 = ((248 : ℤ) : ℚ) by norm_num]
    exact Int.floor_intCast 248
  · have h1 : ((247 : ℤ) : ℚ) / 248 - (819 : ℚ) / 819 = -(1/248) := by norm_num
    rw [h1, abs_neg, abs_of_nonneg (by norm_num : (0:ℚ) ≤ 1/248)]
    norm_num

/-- C4 witness: width target 960 on a 1920×1080 source derives height 540
through the double computation, within one of ⌊960·1080/1920⌋. -/
theorem derived_dim_floor_aspect_witness :
    calcDimsF "width" 1920 1080 960 = .ok (960, 540) ∧
    |(540 : ℤ) - ⌊((960 : ℚ) * 1080) / 1920⌋| ≤ 1 := by
  have h := derived_dim_floor_aspect "width" 1920 1080 960 (by decide)
    (by decide) (by decide) (by decide) (by decide)
  constructor
  · rw [h.1]; rfl
  · have h2 := h.2.1
    have e2 : orthogonalOrig "width" 1920 1080 = 1080 := by decide
    have e3 : constrainedOrig "width" 1920 1080 = 1920 := by decide
    rw [e2, e3] at h2
    have e1 : floatDerived 960 1920 1080 = 540 := by decide
    rw [e1] at h2
    exact_mod_cast h2

/-- C5: a target size equal to the original dimension on the chosen axis
is not skipped and reproduces the original dimensions exactly, on either
axis. -/
theorem equal_size_reproduces_original (ow oh : Int)
    (hw : 0 < ow) (hh : 0 < oh) :
    calcDims "width" ow oh ow = .ok (ow, oh) ∧
    calcDims "height" ow oh oh = .ok (ow, oh) := by
  constructor
  · simp [calcDims, Int.mul_tdiv_cancel_left oh (ne_of_gt hw)]
  · simp [calcDims, Int.mul_tdiv_cancel_left ow (ne_of_gt hh)]

/-- C5 witness: Scenario C — a 500×500 source with width target 500
yields exactly 500×500, and likewise on the height axis. -/
theorem equal_size_reproduces_original_witness :
    calcDims "width" 500 500 500 = .ok (500, 500) ∧
    calcDims "height" 500 500 500 = .ok (500, 500) :=
  equal_size_reproduces_original 500 500 (by decide) (by decide)

/-- C6: a non-positive requested size causes `parse_sizes` to reject the
whole batch with the error raised at line 21/24 of imagepro.py, so the
`cmd_resize` flow aborts before `resize_image` processes any target. -/
theorem nonpositive_size_rejects_batch (input_path : String)
    (decoded : Except String (Int × Int)) (base_name extension : String)
    (rawSizes : List Int) (dimension : String) (s : Int)
    (hmem : s ∈ rawSizes) (hnp : s ≤ 0) :
    cmd_resize input_path decoded base_name extension rawSizes dimension =
      .error "Invalid size format: Sizes must be positive integers" := by
  have hany : rawSizes.any (fun t => decide (t ≤ 0)) = true :=
    List.any_eq_true.mpr ⟨s, hmem, by simpa using hnp⟩
  simp [cmd_resize, parse_sizes, hany]

/-- C6 witness: the batch [300, -1] is rejected as a whole. -/
theorem nonpositive_size_rejects_batch_witness :
    cmd_resize "photo.jpg" (.ok (1920, 1080)) "photo" ".jpg" [300, -1]
        "width" =
      .error "Invalid size format: Sizes must be positive integers" :=
  nonpositive_size_rejects_batch "photo.jpg" (.ok (1920, 1080)) "photo"
    ".jpg" [300, -1] "width" (-1) (by decide) (by decide)

/-- C7 counterexample: on a decode failure `resize_image` does terminate
the process — it prints two lines to stderr and exits with code 4 — so
the claim that the pipeline never terminates the process and never
writes to a console is false on the code. -/
theorem pipeline_never_exits_counterexample :
    resize_image "broken.jpg" (.error "cannot identify image file")
        "broken" ".jpg" [100] "width" =
      .exited 4 ["Error: Cannot read image: broken.jpg",
                 "Details: cannot identify image file"] := rfl

/-- C7 (amended): on a successful decode `resize_image` returns exactly
the pair of ordered result lists, which together cover every input size;
on a decode failure it prints two error lines to stderr and exits the
process with code 4 before any target is processed. -/
theorem resize_image_result_shape (input_path : String)
    (decoded : Except String (Int × Int)) (base_name extension : String)
    (sizes : List Int) (dimension : String) :
    (∀ ow oh, decoded = .ok (ow, oh) →
      resize_image input_path decoded base_name extension sizes dimension =
        .returned (processSizes dimension ow oh base_name extension sizes).1
          (processSizes dimension ow oh base_name extension sizes).2 ∧
      (processSizes dimension ow oh base_name extension sizes).1.length +
        (processSizes dimension ow oh base_name extension sizes).2.length =
        sizes.length) ∧
    (∀ err, decoded = .error err →
      resize_image input_path decoded base_name extension sizes dimension =
        .exited 4 ["Error: Cannot read image: " ++ input_path,
                   "Details: " ++ err]) := by
  constructor
  · rintro ow oh rfl
    refine ⟨rfl, ?_⟩
    rw [processSizes_eq_partition]
    simp only [List.length_map]
    exact length_filter_partition _ sizes
  · rintro err rfl
    rfl

/-- C7 witness: a successful decode returns the two lists; a failing
decode exits with code 4. -/
theorem resize_image_result_shape_witness :
    resize_image "photo.jpg" (.ok (1920, 1080)) "photo" ".jpg" [960]
        "width" =
      .returned (processSizes "width" 1920 1080 "photo" ".jpg" [960]).1
        (processSizes "width" 1920 1080 "photo" ".jpg" [960]).2 ∧
    resize_image "broken.jpg" (.error "bad") "broken" ".jpg" [960]
        "width" =
      .exited 4 ["Error: Cannot read image: broken.jpg",
                 "Details: " ++ "bad"] := by
  constructor
  · exact ((resize_image_result_shape "photo.jpg" (.ok (1920, 1080))
      "photo" ".jpg" [960] "width").1 1920 1080 rfl).1
  · exact (resize_image_result_shape "broken.jpg" (.error "bad")
      "broken" ".jpg" [960] "width").2 "bad" rfl

/-- C8: normalization always yields a 3-channel opaque RGB buffer of the
same pixel dimensions; buffers with transparency are composited onto an
opaque white background with the alpha channel as linear blend weight
(palette buffers first expanded to color+alpha), and any other non-RGB
opaque mode is converted to RGB. -/
theorem normalize_spec (buf : PixBuf) :
    (normalize buf).isRGB = true ∧
    (normalize buf).width = buf.width ∧
    (normalize buf).height = buf.height ∧
    (∀ w h px, normalize (.rgba w h px) =
      .rgb w h (fun x y => compositeWhite (px x y))) ∧
    (∀ w h palette idx, normalize (.pal w h palette idx) =
      normalize (.rgba w h (fun x y => palToRGBA palette idx x y))) ∧
    (∀ w h toRGB, normalize (.other w h toRGB) = .rgb w h toRGB) ∧
    (∀ c, blendOverWhite 0 c = 255) ∧
    (∀ c, blendOverWhite 255 c = c) ∧
    (∀ a c, blendOverWhite a c = (a / 255) * c + (1 - a / 255) * 255) := by
  refine ⟨?_, ?_, ?_, fun w h px => rfl, fun w h palette idx => rfl,
    fun w h toRGB => rfl, fun c => ?_, fun c => ?_, fun a c => ?_⟩
  · cases buf <;> rfl
  · cases buf <;> rfl
  · cases buf <;> rfl
  · unfold blendOverWhite; ring
  · unfold blendOverWhite; ring
  · unfold blendOverWhite; ring

/-- C10: the axis argument is never validated — any string other than
`"width"` (misspellings included) takes the height branch, behaving
exactly like `"height"`, both in the dimension calculation and across the
whole per-size loop. -/
theorem invalid_axis_treated_as_height (dimension : String)
    (hne : dimension ≠ "width") (ow oh : Int) (base_name extension : String)
    (sizes : List Int) :
    (∀ s, calcDims dimension ow oh s = calcDims "height" ow oh s) ∧
    processSizes dimension ow oh base_name extension sizes =
      processSizes "height" ow oh base_name extension sizes := by
  have hcd : ∀ s, calcDims dimension ow oh s = calcDims "height" ow oh s := by
    intro s; simp [calcDims, hne]
  refine ⟨hcd, ?_⟩
  induction sizes with
  | nil => rfl
  | cons s rest ih => simp only [processSizes, hcd s, ih]

/-- C10 witness: the misspelled axis "Width" is silently treated as the
height axis. -/
theorem invalid_axis_treated_as_height_witness :
    ("Width" ≠ ("width" : String)) ∧
    processSizes "Width" 1920 1080 "photo" ".jpg" [500] =
      processSizes "height" 1920 1080 "photo" ".jpg" [500] :=
  ⟨by decide, (invalid_axis_treated_as_height "Width" (by decide) 1920 1080
    "photo" ".jpg" [500]).2⟩

/-- Numeric value of a decimal digit string; proof device to invert
`Nat.repr`. -/
def decimalVal : List Char → Nat
  | [] => 0
  | c :: cs => (c.toNat - 48) * 10 ^ cs.length + decimalVal cs

/-- The decimal digit characters decode back to their digit. -/
theorem digitChar_val (n : Nat) (h : n < 10) :
    (Nat.digitChar n).toNat - 48 = n := by
  interval_cases n <;> rfl

/-- Core recursion: `Nat.toDigitsCore` prepends the digits of `n` to the accumulator, so
the decoded value is `n` shifted past the accumulator plus the
accumulator's value. -/
theorem decimalVal_toDigitsCore (fuel : Nat) :
    ∀ n acc, n < fuel →
      decimalVal (Nat.toDigitsCore 10 fuel n acc) =
        n * 10 ^ acc.length + decimalVal acc := by
  induction fuel with
  | zero => intro n acc h; exact absurd h (Nat.not_lt_zero n)
  | succ f ih =>
    intro n acc h
    have hmod : n % 10 < 10 := Nat.mod_lt n (by norm_num)
    have expand : decimalVal (Nat.digitChar (n % 10) :: acc) =
        (n % 10) * 10 ^ acc.length + decimalVal acc := by
      simp [decimalVal, digitChar_val (n % 10) hmod]
    by_cases h10 : n / 10 = 0
    · have hn : n < 10 := by omega
      simp only [Nat.toDigitsCore, h10, if_pos]
      rw [expand]
      rw [Nat.mod_eq_of_lt hn]
    · have hn0 : 0 < n := by
        rcases Nat.eq_zero_or_pos n with h0 | h0
        · exact absurd (by simp [h0]) h10
        · exact h0
      have hlt : n / 10 < f :=
        lt_of_lt_of_le (Nat.div_lt_self hn0 (by norm_num)) (Nat.lt_succ_iff.mp h)
      simp only [Nat.toDigitsCore, h10, if_neg, if_false]
      rw [ih (n / 10) (Nat.digitChar (n % 10) :: acc) hlt]
      rw [List.length_cons, expand]
      have hdm : 10 * (n / 10) + n % 10 = n := Nat.div_add_mod n 10
      have hr : n / 10 * 10 ^ (acc.length + 1) +
          ((n % 10) * 10 ^ acc.length + decimalVal acc) =
          (10 * (n / 10) + n % 10) * 10 ^ acc.length + decimalVal acc := by
        ring
      rw [hr, hdm]

/-- Decoding the decimal digits of `n` recovers `n`: `Nat.repr` is
invertible, hence injective. -/
theorem decimalVal_toDigits (n : Nat) :
    decimalVal (Nat.toDigits 10 n) = n := by
  have := decimalVal_toDigitsCore (n + 1) n [] (Nat.lt_succ_self n)
  simpa [Nat.toDigits, decimalVal] using this

/-- A positive integer prints as the decimal representation of its
absolute value. -/
theorem toString_int_pos (s : Int) (hs : 0 < s) :
    toString s = Nat.repr s.toNat := by
  cases s with
  | ofNat m => rfl
  | negSucc m => exact absurd hs (by rw [Int.negSucc_eq]; omega)

/-- Distinct positive target sizes yield distinct destination names for a
fixed source base name and extension. -/
theorem output_filename_inj (base_name extension : String) (s1 s2 : Int)
    (h1 : 0 < s1) (h2 : 0 < s2) (hne : s1 ≠ s2) :
    output_filename base_name extension s1 ≠
      output_filename base_name extension s2 := by
  intro heq
  apply hne
  unfold output_filename at heq
  have hd := congrArg String.data heq
  simp only [String.data_append, List.append_assoc] at hd
  have h1' := List.append_cancel_left hd
  have h2' := List.append_cancel_left h1'
  have h3' := List.append_cancel_right h2'
  rw [toString_int_pos s1 h1, toString_int_pos s2 h2] at h3'
  have hdig : Nat.toDigits 10 s1.toNat = Nat.toDigits 10 s2.toNat := by
    simpa [Nat.repr, List.asString] using h3'
  have hv := congrArg decimalVal hdig
  simp only [decimalVal_toDigits] at hv
  omega

/-- C9: the destination name is the source base name, an underscore, the
decimal target size and the original extension; it is injective in the
target size (for positive sizes) for a fixed source, and a duplicated
feasible size produces two created records with identical names. -/
theorem destination_name_spec (base_name extension : String) (s1 s2 : Int)
    (h1 : 0 < s1) (h2 : 0 < s2) :
    output_filename base_name extension s1 =
      base_name ++ "_" ++ toString s1 ++ extension ∧
    (s1 ≠ s2 → output_filename base_name extension s1 ≠
      output_filename base_name extension s2) ∧
    (∀ dimension ow oh, s1 ≤ constrainedOrig dimension ow oh →
      ((processSizes dimension ow oh base_name extension [s1, s1]).1.map
        CreatedFile.filename) =
        [output_filename base_name extension s1,
         output_filename base_name extension s1] ∧
      (processSizes dimension ow oh base_name extension [s1, s1]).2 = []) := by
  refine ⟨rfl,
    fun hne => output_filename_inj base_name extension s1 s2 h1 h2 hne, ?_⟩
  intro dimension ow oh hfe
  have hfeB : feasible dimension ow oh s1 = true := by simp [feasible, hfe]
  have hfn : (mkCreated dimension ow oh base_name extension s1).filename =
      output_filename base_name extension s1 := by
    by_cases hdim : dimension = "width" <;> simp [mkCreated, hdim]
  rw [processSizes_eq_partition]
  simp [hfeB, hfn]

/-- C9 witness: Scenario D — base name "photo", extension ".jpg", sizes
100 and 200 give names "photo_100.jpg" ≠ "photo_200.jpg"; the duplicated
size 100 on a 1920×1080 source yields two created records with the
identical name "photo_100.jpg". -/
theorem destination_name_spec_witness :
    output_filename "photo" ".jpg" 100 = "photo_100.jpg" ∧
    output_filename "photo" ".jpg" 100 ≠ output_filename "photo" ".jpg" 200 ∧
    ((processSizes "width" 1920 1080 "photo" ".jpg" [100, 100]).1.map
      CreatedFile.filename) = ["photo_100.jpg", "photo_100.jpg"] := by
  have h := destination_name_spec "photo" ".jpg" 100 200 (by decide) (by decide)
  refine ⟨by decide, h.2.1 (by decide), ?_⟩
  have h3 := (h.2.2 "width" 1920 1080 (by decide)).1
  rw [h3]
  decide

end ImagePro
